import Mathlib

/-!
Verification of the persistent-vector log engine (`src/task.cc`).

The development shallowly embeds the C++ class `vector`: its in-memory
state (`m_data`, `m_last_id`, the open output stream), the on-disk record
wire format (`Header`, 24 bytes of three `uint64_t` fields), the write
paths `push_back` / `erase`, the read paths `at` / `size`, the recovery
loop `load_from_file`, and the move operations.  Machine integers are
modelled as `Nat` with explicit reduction modulo `2 ^ 64` where the C++
code performs `uint64_t` / `size_t` arithmetic.
-/

namespace PVec

/-- The `uint64_t` modulus, `2 ^ 64`. -/
def U64 : Nat := 18446744073709551616

/-- Little-endian serialization of one `uint64_t` field, as written byte
for byte by `m_ofs.write` on the raw `Header` memory. -/
def encodeU64 (n : Nat) : List Nat :=
  [n % 256, n / 256 % 256, n / 256 ^ 2 % 256, n / 256 ^ 3 % 256,
   n / 256 ^ 4 % 256, n / 256 ^ 5 % 256, n / 256 ^ 6 % 256, n / 256 ^ 7 % 256]

/-- Reading eight little-endian bytes back into a `uint64_t`, as
`ifs.read` does into a `Header` field. -/
def decodeU64 (bs : List Nat) : Nat :=
  bs.foldr (fun b acc => b + 256 * acc) 0

/-- The record header of `src/task.cc` (struct `Header`): three
`uint64_t` fields, 24 bytes, no padding.  `aux` models the union of
`dsize` (Append payload length) and `rindex` (Tombstone target index). -/
structure Header where
  type : Nat
  id : Nat
  aux : Nat
deriving DecidableEq

/-- Tag written for an Append record (`vector::PUSHBACK`). -/
def PUSHBACK : Nat := 1

/-- Tag written for a Tombstone record (`vector::ERASE`). -/
def ERASE : Nat := 2

/-- Byte image of a `Header` as written by `m_ofs.write(&header, 24)`. -/
def encodeHeader (h : Header) : List Nat :=
  encodeU64 h.type ++ encodeU64 h.id ++ encodeU64 h.aux

/-- A logical log record: Append (kind `PUSHBACK`) carries a payload,
Tombstone (kind `ERASE`) carries the target index. -/
inductive Rec where
  | app (id : Nat) (v : List Nat)
  | del (id : Nat) (i : Nat)
deriving DecidableEq

/-- Bytes appended to the log for one record: `push_back` writes the
header then the raw payload, `erase` writes the header only. -/
def encodeRec : Rec → List Nat
  | .app id v => encodeHeader ⟨PUSHBACK, id, v.length⟩ ++ v
  | .del id i => encodeHeader ⟨ERASE, id, i⟩

/-- Concatenated encoding of a record sequence (the whole log file). -/
def encodeRecs : List Rec → List Nat
  | [] => []
  | r :: rs => encodeRec r ++ encodeRecs rs

/-- An in-memory element (struct `Item`): id and owned byte string. -/
structure Item where
  id : Nat
  str : List Nat
deriving DecidableEq

/-- Outcome of one iteration's worth of `load_from_file`:
the loop either ends normally (`ok`, via `break` on a failed read),
throws `std::out_of_range` from `m_data.at` on a Tombstone whose
`rindex` is out of range (`atThrow`), or trips the
`assert(m_data.at(header.rindex).id == header.id)` (`assertAbort`). -/
inductive LoadResult where
  | ok (data : List Item)
  | atThrow
  | assertAbort
deriving DecidableEq

/-- Fuel-indexed recovery loop of `vector::load_from_file`.  Each
iteration reads a 24-byte header (a short read breaks the loop,
returning what was accumulated); an `ERASE` header validates and erases
`m_data.at(rindex)`; a `PUSHBACK` header reads `dsize` payload bytes (a
short read breaks the loop without appending); any other kind tag falls
through both `if` branches and is skipped.  Fuel `bs.length + 1` always
suffices since every iteration consumes at least 24 bytes. -/
def loadAux : Nat → List Nat → List Item → LoadResult
  | 0, _, d => .ok d
  | fuel + 1, bs, d =>
    if 24 ≤ bs.length then
      if decodeU64 (bs.take 8) = ERASE then
        match d.get? (decodeU64 ((bs.drop 16).take 8)) with
        | none => .atThrow
        | some item =>
          if item.id = decodeU64 ((bs.drop 8).take 8) then
            loadAux fuel (bs.drop 24) (d.eraseIdx (decodeU64 ((bs.drop 16).take 8)))
          else .assertAbort
      else if decodeU64 (bs.take 8) = PUSHBACK then
        if decodeU64 ((bs.drop 16).take 8) ≤ (bs.drop 24).length then
          loadAux fuel ((bs.drop 24).drop (decodeU64 ((bs.drop 16).take 8)))
            (d ++ [⟨decodeU64 ((bs.drop 8).take 8),
                    (bs.drop 24).take (decodeU64 ((bs.drop 16).take 8))⟩])
        else .ok d
      else loadAux fuel (bs.drop 24) d
    else .ok d

/-- Recovery of a whole byte stream from offset 0 into accumulated
items `d` (the loop of `vector::load_from_file`). -/
def loadFrom (bs : List Nat) (d : List Item) : LoadResult :=
  loadAux (bs.length + 1) bs d

/-- The mutable state of one `vector` object: the in-memory index
`m_data`, the id counter `m_last_id`, the byte content of the log file
written through `m_ofs` (`log`), and whether `m_ofs` holds an open file
(writes to an unopened stream are no-ops). -/
structure VecState where
  m_data : List Item
  m_last_id : Nat
  log : List Nat
  ofs_open : Bool
deriving DecidableEq

/-- Outcome of a member-function call.  `validationError` is modelled
from the spec: the error value §7 of the spec says is returned to the
caller; no operation of `src/task.cc` produces it.  `assertFail` is a
failed `assert` (process abort), `throwOOR` a thrown
`std::out_of_range`, `undef` undefined behaviour (an unchecked
out-of-bounds iterator). -/
inductive OpResult (α : Type) where
  | ok (a : α)
  | validationError
  | assertFail
  | throwOOR
  | undef
deriving DecidableEq

/-- `vector::push_back`: mint `id = ++m_last_id`; `assert(length <= 4_KB)`
aborts on an oversized value; otherwise append the Append record to the
log and `emplace_back` the item. -/
def push_back (s : VecState) (v : List Nat) : OpResult VecState :=
  if 4096 < v.length then .assertFail
  else
    let id := (s.m_last_id + 1) % U64
    .ok { m_data := s.m_data ++ [⟨id, v⟩]
        , m_last_id := id
        , log := if s.ofs_open then s.log ++ encodeRec (.app id v) else s.log
        , ofs_open := s.ofs_open }

/-- `vector::erase`: no bounds check — `m_data.begin() + index` and
`it->id` are undefined behaviour when `index ≥ size()` (`undef`);
otherwise write the Tombstone record, bump `m_last_id` (the argument of
`periodic_notify(++m_last_id)`), and erase the item.  The `index`
parameter is a `size_t`, modelled by reduction modulo `2 ^ 64`. -/
def erase (s : VecState) (i : Nat) : OpResult VecState :=
  let idx := i % U64
  match s.m_data.get? idx with
  | none => .undef
  | some item =>
    .ok { m_data := s.m_data.eraseIdx idx
        , m_last_id := (s.m_last_id + 1) % U64
        , log := if s.ofs_open then s.log ++ encodeRec (.del item.id idx) else s.log
        , ofs_open := s.ofs_open }

/-- `vector::at`: `m_data.at(index)` throws `std::out_of_range` when the
index is out of bounds, else returns a view of the stored string. -/
def atIndex (s : VecState) (i : Nat) : OpResult (List Nat) :=
  match s.m_data.get? (i % U64) with
  | none => .throwOOR
  | some item => .ok item.str

/-- `vector::size`. -/
def size (s : VecState) : Nat := s.m_data.length

/-- Construction against a directory holding log file content `file`
(empty directory: `file = []`): replay via `load_from_file`, then open
`m_ofs` in append mode.  `m_last_id` is initialized to 0 by the
constructor and is never touched by `load_from_file`.  A replay that
throws or asserts never returns a vector (`none`). -/
def construct (file : List Nat) : Option VecState :=
  match loadFrom file [] with
  | .ok d => some { m_data := d, m_last_id := 0, log := file, ofs_open := true }
  | _ => none

/-- The state of a vector constructed over an empty directory. -/
def freshState : VecState := { m_data := [], m_last_id := 0, log := [], ofs_open := true }

/-- A client call in a session. -/
inductive Op where
  | push (v : List Nat)
  | eraseAt (i : Nat)
deriving DecidableEq

/-- One client call; `none` when the call does not complete normally. -/
def applyOp (s : VecState) : Op → Option VecState
  | .push v =>
    match push_back s v with
    | .ok s' => some s'
    | _ => none
  | .eraseAt i =>
    match erase s i with
    | .ok s' => some s'
    | _ => none

/-- A whole session of client calls. -/
def runOps (s : VecState) : List Op → Option VecState
  | [] => some s
  | op :: ops =>
    match applyOp s op with
    | some s' => runOps s' ops
    | none => none

/-- Replay effect of one record on an item list (the semantic mirror of
one `load_from_file` iteration). -/
def applyRec (d : List Item) : Rec → List Item
  | .app id v => d ++ [⟨id, v⟩]
  | .del _ i => d.eraseIdx i

/-- Replay effect of a record sequence. -/
def applyRecs (d : List Item) : List Rec → List Item
  | [] => d
  | r :: rs => applyRecs (applyRec d r) rs

/-- Field bounds and semantic validity of one record against the item
list it will be replayed onto. -/
def validRec (d : List Item) : Rec → Bool
  | .app id v => decide (id < U64) && decide (v.length < U64)
  | .del id i =>
    decide (id < U64) && decide (i < U64) &&
      match d.get? i with
      | none => false
      | some item => decide (item.id = id)

/-- Validity of a record sequence replayed from `d`. -/
def validFrom (d : List Item) : List Rec → Bool
  | [] => true
  | r :: rs => validRec d r && validFrom (applyRec d r) rs

/-- `vector::operator=(vector&&)` (task.cc:143-150): only
`m_data = std::exchange(v.m_data, {})` runs; no other member of either
object is touched.  Returns (destination, source) after the move. -/
def move_assign (dst src : VecState) : VecState × VecState :=
  ({ dst with m_data := src.m_data }, { src with m_data := [] })

/-- `vector(vector&&)` (task.cc:142): default-constructs every member —
`m_ofs` holds no open file, no background thread is started, and
`m_last_id` is left uninitialized (modelled by the parameter `u`) — and
then move-assigns from the source. -/
def move_ctor (u : Nat) (src : VecState) : VecState × VecState :=
  move_assign { m_data := [], m_last_id := u, log := [], ofs_open := false } src

/-- Kind of shared-state access named by the spec's concurrency
contract: a write through `m_ofs` (the log's write position), a read or
a mutation of the In-Memory Index `m_data`, or the daemon's
flush-plus-`fsync`. -/
inductive Touch where
  | logWrite
  | indexRead
  | indexWrite
  | flushSync
deriving DecidableEq

/-- One shared-state access together with whether `m_mtx` is held while
it executes, read off the lexical scope of the `lock_guard` /
`unique_lock` in `src/task.cc`. -/
structure Step where
  touch : Touch
  locked : Bool
deriving DecidableEq

/-- Accesses of `vector::push_back` in program order (task.cc:152-171):
the two `m_ofs.write` calls sit inside the `lock_guard` scope;
`m_data.emplace_back` runs after that scope closes, without the mutex. -/
def push_back_steps : List Step :=
  [⟨.logWrite, true⟩, ⟨.logWrite, true⟩, ⟨.indexWrite, false⟩]

/-- Accesses of `vector::erase` in program order (task.cc:178-191):
`m_data.begin() + index` reads the Index before the lock; `it->id` and
the `m_ofs.write` run under the lock; `m_data.erase(it)` runs after the
scope closes, without the mutex. -/
def erase_steps : List Step :=
  [⟨.indexRead, false⟩, ⟨.indexRead, true⟩, ⟨.logWrite, true⟩, ⟨.indexWrite, false⟩]

/-- Access of `vector::at` (task.cc:173-176): one Index read, no lock is
taken. -/
def at_steps : List Step := [⟨.indexRead, false⟩]

/-- Access of `vector::size` (task.cc:193): one Index read, no lock is
taken. -/
def size_steps : List Step := [⟨.indexRead, false⟩]

/-- Accesses of the durability daemon (task.cc:103-130): each
flush-plus-`fsync` runs while the `unique_lock` on `m_mtx` is held
(inside `wait_for`'s predicate or between waits). -/
def daemon_steps : List Step := [⟨.flushSync, true⟩]

/-- Decoding the eight bytes written for a `uint64_t` value recovers the
value modulo `2 ^ 64`. -/
theorem decode_encode (n : Nat) : decodeU64 (encodeU64 n) = n % U64 := by
  simp only [decodeU64, encodeU64, List.foldr, U64]
  norm_num
  omega

theorem encodeU64_length (n : Nat) : (encodeU64 n).length = 8 := rfl

theorem encodeHeader_length (h : Header) : (encodeHeader h).length = 24 := by
  simp [encodeHeader, encodeU64_length]

/-- Slicing the wire image of a header followed by `rest` recovers the
three serialized fields and `rest`. -/
theorem hdr_decomp (k i a : Nat) (rest : List Nat) :
    ((encodeHeader ⟨k, i, a⟩ ++ rest).take 8 = encodeU64 k) ∧
    (((encodeHeader ⟨k, i, a⟩ ++ rest).drop 8).take 8 = encodeU64 i) ∧
    (((encodeHeader ⟨k, i, a⟩ ++ rest).drop 16).take 8 = encodeU64 a) ∧
    ((encodeHeader ⟨k, i, a⟩ ++ rest).drop 24 = rest) := by
  have h1 : encodeHeader ⟨k, i, a⟩ ++ rest
      = encodeU64 k ++ (encodeU64 i ++ (encodeU64 a ++ rest)) := by
    simp [encodeHeader]
  have h2 : encodeHeader ⟨k, i, a⟩ ++ rest
      = (encodeU64 k ++ encodeU64 i) ++ (encodeU64 a ++ rest) := by
    simp [encodeHeader]
  refine ⟨?_, ?_, ?_, ?_⟩
  · rw [h1, List.take_left' (encodeU64_length k)]
  · rw [h1, List.drop_left' (encodeU64_length k),
      List.take_left' (encodeU64_length i)]
  · rw [h2, List.drop_left' (by simp [encodeU64_length] : (encodeU64 k ++ encodeU64 i).length = 16),
      List.take_left' (encodeU64_length a)]
  · rw [List.drop_left' (encodeHeader_length _)]

theorem hdr_rest_length (k i a : Nat) (rest : List Nat) :
    (encodeHeader ⟨k, i, a⟩ ++ rest).length = 24 + rest.length := by
  simp [encodeHeader_length]

/-- The recovery loop's result does not depend on the fuel once the fuel
exceeds the number of remaining bytes. -/
theorem loadAux_congr : ∀ f g : Nat, ∀ bs : List Nat, ∀ d : List Item,
    bs.length < f → bs.length < g → loadAux f bs d = loadAux g bs d := by
  intro f
  induction f with
  | zero => intro g bs d hf; omega
  | succ f ih =>
    intro g bs d hf hg
    match g, hg with
    | g + 1, hg =>
      show loadAux (f + 1) bs d = loadAux (g + 1) bs d
      simp only [loadAux]
      by_cases h24 : 24 ≤ bs.length
      · have hrest : (bs.drop 24).length < f := by
          simp only [List.length_drop]; omega
        have hrest' : (bs.drop 24).length < g := by
          simp only [List.length_drop]; omega
        rw [if_pos h24, if_pos h24]
        by_cases hk : decodeU64 (bs.take 8) = ERASE
        · rw [if_pos hk, if_pos hk]
          cases hget : d.get? (decodeU64 ((bs.drop 16).take 8)) with
          | none => rfl
          | some item =>
            by_cases hidm : item.id = decodeU64 ((bs.drop 8).take 8)
            · simp only [hidm, if_true]
              exact ih g _ _ hrest hrest'
            · simp only [hidm, if_false]
        · rw [if_neg hk, if_neg hk]
          by_cases hp : decodeU64 (bs.take 8) = PUSHBACK
          · rw [if_pos hp, if_pos hp]
            by_cases ha : decodeU64 ((bs.drop 16).take 8) ≤ (bs.drop 24).length
            · rw [if_pos ha, if_pos ha]
              refine ih g _ _ ?_ ?_ <;> · simp only [List.length_drop]; omega
            · rw [if_neg ha, if_neg ha]
          · rw [if_neg hp, if_neg hp]
            exact ih g _ _ hrest hrest'
      · rw [if_neg h24, if_neg h24]

/-- One-step unfolding of the recovery loop at positive fuel. -/
theorem loadAux_succ (fuel : Nat) (bs : List Nat) (d : List Item) :
    loadAux (fuel + 1) bs d =
      if 24 ≤ bs.length then
        if decodeU64 (bs.take 8) = ERASE then
          match d.get? (decodeU64 ((bs.drop 16).take 8)) with
          | none => .atThrow
          | some item =>
            if item.id = decodeU64 ((bs.drop 8).take 8) then
              loadAux fuel (bs.drop 24) (d.eraseIdx (decodeU64 ((bs.drop 16).take 8)))
            else .assertAbort
        else if decodeU64 (bs.take 8) = PUSHBACK then
          if decodeU64 ((bs.drop 16).take 8) ≤ (bs.drop 24).length then
            loadAux fuel ((bs.drop 24).drop (decodeU64 ((bs.drop 16).take 8)))
              (d ++ [⟨decodeU64 ((bs.drop 8).take 8),
                      (bs.drop 24).take (decodeU64 ((bs.drop 16).take 8))⟩])
          else .ok d
        else loadAux fuel (bs.drop 24) d
      else .ok d := rfl

/-- Fewer than 24 bytes remain: the header read fails and the loop
breaks, keeping the accumulated items. -/
theorem load_short (bs : List Nat) (d : List Item) (h : bs.length < 24) :
    loadFrom bs d = .ok d := by
  simp only [loadFrom]
  rw [loadAux_succ, if_neg (by omega)]

/-- Replaying a complete Append record appends the item and continues on
the remaining bytes. -/
theorem load_app_step (id : Nat) (v tail : List Nat) (d : List Item)
    (hid : id < U64) (hv : v.length < U64) :
    loadFrom (encodeRec (.app id v) ++ tail) d = loadFrom tail (d ++ [⟨id, v⟩]) := by
  have hbs : encodeRec (.app id v) ++ tail
      = encodeHeader ⟨PUSHBACK, id, v.length⟩ ++ (v ++ tail) := by
    simp [encodeRec]
  obtain ⟨hK, hI, hA, hR⟩ := hdr_decomp PUSHBACK id v.length (v ++ tail)
  have hlen := hdr_rest_length PUSHBACK id v.length (v ++ tail)
  rw [hbs]
  simp only [loadFrom]
  rw [loadAux_succ, hK, hI, hA, hR]
  simp only [decode_encode, Nat.mod_eq_of_lt hid, Nat.mod_eq_of_lt hv]
  rw [show PUSHBACK % U64 = PUSHBACK from by decide]
  rw [if_pos (by rw [hlen]; omega)]
  rw [if_neg (by decide : ¬ PUSHBACK = ERASE)]
  rw [if_pos rfl]
  rw [if_pos (by simp : v.length ≤ (v ++ tail).length)]
  rw [List.take_left, List.drop_left]
  refine loadAux_congr _ _ _ _ ?_ ?_
  · rw [hlen]; simp only [List.length_append]; omega
  · omega

/-- Replaying a complete, valid Tombstone record erases the indexed item
and continues on the remaining bytes. -/
theorem load_del_step (id i : Nat) (tail : List Nat) (d : List Item) (item : Item)
    (hid : id < U64) (hi : i < U64)
    (hget : d.get? i = some item) (heq : item.id = id) :
    loadFrom (encodeRec (.del id i) ++ tail) d = loadFrom tail (d.eraseIdx i) := by
  have hbs : encodeRec (.del id i) ++ tail
      = encodeHeader ⟨ERASE, id, i⟩ ++ tail := by
    simp [encodeRec]
  obtain ⟨hK, hI, hA, hR⟩ := hdr_decomp ERASE id i tail
  have hlen := hdr_rest_length ERASE id i tail
  rw [hbs]
  simp only [loadFrom]
  rw [loadAux_succ, hK, hI, hA, hR]
  simp only [decode_encode, Nat.mod_eq_of_lt hid, Nat.mod_eq_of_lt hi]
  rw [show ERASE % U64 = ERASE from by decide]
  rw [if_pos (by rw [hlen]; omega)]
  rw [if_pos rfl]
  simp only [hget]
  rw [if_pos heq]
  refine loadAux_congr _ _ _ _ ?_ ?_
  · rw [hlen]; omega
  · omega

/-- A complete Tombstone whose index is out of range makes recovery
throw `std::out_of_range` from `m_data.at`. -/
theorem load_del_throw (id i : Nat) (tail : List Nat) (d : List Item)
    (hid : id < U64) (hi : i < U64) (hoob : d.length ≤ i) :
    loadFrom (encodeHeader ⟨ERASE, id, i⟩ ++ tail) d = .atThrow := by
  obtain ⟨hK, hI, hA, hR⟩ := hdr_decomp ERASE id i tail
  have hlen := hdr_rest_length ERASE id i tail
  simp only [loadFrom]
  rw [loadAux_succ, hK, hI, hA, hR]
  simp only [decode_encode, Nat.mod_eq_of_lt hid, Nat.mod_eq_of_lt hi]
  rw [show ERASE % U64 = ERASE from by decide]
  rw [if_pos (by rw [hlen]; omega)]
  rw [if_pos rfl, List.get?_eq_none.mpr hoob]

/-- A complete Tombstone whose id does not match the indexed item's id
trips the replay assertion. -/
theorem load_del_abort (id i : Nat) (tail : List Nat) (d : List Item) (item : Item)
    (hid : id < U64) (hi : i < U64)
    (hget : d.get? i = some item) (hne : item.id ≠ id) :
    loadFrom (encodeHeader ⟨ERASE, id, i⟩ ++ tail) d = .assertAbort := by
  obtain ⟨hK, hI, hA, hR⟩ := hdr_decomp ERASE id i tail
  have hlen := hdr_rest_length ERASE id i tail
  simp only [loadFrom]
  rw [loadAux_succ, hK, hI, hA, hR]
  simp only [decode_encode, Nat.mod_eq_of_lt hid, Nat.mod_eq_of_lt hi]
  rw [show ERASE % U64 = ERASE from by decide]
  rw [if_pos (by rw [hlen]; omega)]
  rw [if_pos rfl]
  simp only [hget]
  rw [if_neg hne]

/-- A complete record with an unrecognized kind tag is silently skipped:
its 24-byte header is consumed and replay continues unchanged. -/
theorem load_skip_step (k id a : Nat) (tail : List Nat) (d : List Item)
    (hk : k < U64) (hk1 : k ≠ ERASE) (hk2 : k ≠ PUSHBACK) :
    loadFrom (encodeHeader ⟨k, id, a⟩ ++ tail) d = loadFrom tail d := by
  obtain ⟨hK, hI, hA, hR⟩ := hdr_decomp k id a tail
  have hlen := hdr_rest_length k id a tail
  simp only [loadFrom]
  rw [loadAux_succ, hK, hI, hA, hR]
  simp only [decode_encode, Nat.mod_eq_of_lt hk]
  rw [if_pos (by rw [hlen]; omega)]
  rw [if_neg hk1, if_neg hk2]
  refine loadAux_congr _ _ _ _ ?_ ?_
  · rw [hlen]; omega
  · omega

/-- A truncation strictly inside the payload of an Append record applies
nothing: the header decodes but the payload read comes up short. -/
theorem load_torn_app (id : Nat) (v : List Nat) (m : Nat) (d : List Item)
    (hv : v.length < U64) (h24 : 24 ≤ m) (hm : m < 24 + v.length) :
    loadFrom ((encodeRec (.app id v)).take m) d = .ok d := by
  have hsplit : (encodeRec (.app id v)).take m
      = encodeHeader ⟨PUSHBACK, id, v.length⟩ ++ v.take (m - 24) := by
    simp only [encodeRec]
    rw [List.take_append_eq_append_take,
      List.take_of_length_le (by rw [encodeHeader_length]; omega), encodeHeader_length]
  rw [hsplit]
  obtain ⟨hK, hI, hA, hR⟩ := hdr_decomp PUSHBACK id v.length (v.take (m - 24))
  have hlen := hdr_rest_length PUSHBACK id v.length (v.take (m - 24))
  simp only [loadFrom]
  rw [loadAux_succ, hK, hA, hR]
  simp only [decode_encode, Nat.mod_eq_of_lt hv]
  rw [show PUSHBACK % U64 = PUSHBACK from by decide]
  rw [if_pos (by rw [hlen]; omega)]
  rw [if_neg (by decide : ¬ PUSHBACK = ERASE)]
  rw [if_pos rfl]
  rw [if_neg (by simp only [List.length_take]; omega)]

theorem encodeRecs_append (rs₁ rs₂ : List Rec) :
    encodeRecs (rs₁ ++ rs₂) = encodeRecs rs₁ ++ encodeRecs rs₂ := by
  induction rs₁ with
  | nil => rfl
  | cons r rs ih => simp [encodeRecs, ih]

theorem applyRecs_append (rs₁ rs₂ : List Rec) (d : List Item) :
    applyRecs d (rs₁ ++ rs₂) = applyRecs (applyRecs d rs₁) rs₂ := by
  induction rs₁ generalizing d with
  | nil => rfl
  | cons r rs ih => simp [applyRecs, ih]

theorem validFrom_append (rs₁ rs₂ : List Rec) (d : List Item) :
    validFrom d (rs₁ ++ rs₂)
      = (validFrom d rs₁ && validFrom (applyRecs d rs₁) rs₂) := by
  induction rs₁ generalizing d with
  | nil => simp [validFrom, applyRecs]
  | cons r rs ih => simp [validFrom, applyRecs, ih, Bool.and_assoc]

/-- Replaying the encoding of a valid record sequence consumes exactly
those bytes, applies the records, and continues on the remaining
bytes. -/
theorem load_encodeRecs (rs : List Rec) : ∀ (d : List Item) (tail : List Nat),
    validFrom d rs = true →
    loadFrom (encodeRecs rs ++ tail) d = loadFrom tail (applyRecs d rs) := by
  induction rs with
  | nil => intro d tail _; rfl
  | cons r rs ih =>
    intro d tail hv
    rw [show encodeRecs (r :: rs) = encodeRec r ++ encodeRecs rs from rfl,
      List.append_assoc]
    simp only [validFrom, Bool.and_eq_true] at hv
    obtain ⟨hr, hrs⟩ := hv
    cases r with
    | app id v =>
      simp only [validRec, Bool.and_eq_true, decide_eq_true_eq] at hr
      rw [load_app_step id v _ d hr.1 hr.2]
      exact ih _ _ hrs
    | del id i =>
      simp only [validRec, Bool.and_eq_true, decide_eq_true_eq] at hr
      obtain ⟨⟨hid, hi⟩, hm⟩ := hr
      cases hget : d.get? i with
      | none => rw [hget] at hm; simp at hm
      | some item =>
        rw [hget] at hm
        simp only [decide_eq_true_eq] at hm
        rw [load_del_step id i _ d item hid hi hget hm]
        exact ih _ _ hrs

/-- Session invariant of a live vector: its log file content is the
encoding of a valid record sequence whose replay yields exactly the
in-memory index; all live ids fit in `uint64_t`. -/
theorem runOps_good : ∀ (ops : List Op) (s s' : VecState),
    runOps s ops = some s' →
    s.ofs_open = true →
    (∀ x ∈ s.m_data, x.id < U64) →
    ∀ rs : List Rec, s.log = encodeRecs rs → validFrom [] rs = true →
      applyRecs [] rs = s.m_data →
    ∃ rs' : List Rec, s'.log = encodeRecs rs' ∧ validFrom [] rs' = true ∧
      applyRecs [] rs' = s'.m_data ∧ s'.ofs_open = true ∧
      (∀ x ∈ s'.m_data, x.id < U64) := by
  intro ops
  induction ops with
  | nil =>
    intro s s' hrun hopen hids rs hlog hvalid happly
    cases hrun
    exact ⟨rs, hlog, hvalid, happly, hopen, hids⟩
  | cons op ops ih =>
    intro s s' hrun hopen hids rs hlog hvalid happly
    cases op with
    | push v =>
      simp only [runOps, applyOp] at hrun
      by_cases hlen : 4096 < v.length
      · rw [push_back, if_pos hlen] at hrun
        simp at hrun
      · rw [push_back, if_neg hlen] at hrun
        refine ih _ s' hrun (by simpa using hopen) ?_ (rs ++ [.app ((s.m_last_id + 1) % U64) v]) ?_ ?_ ?_
        · intro x hx
          simp only [List.mem_append, List.mem_singleton] at hx
          rcases hx with hx | hx
          · exact hids x hx
          · subst hx; exact Nat.mod_lt _ (by simp only [U64]; omega)
        · simp only [encodeRecs_append, hopen, if_true]
          rw [hlog]
          simp [encodeRecs]
        · rw [validFrom_append, hvalid, Bool.true_and, happly]
          simp only [validFrom, validRec, Bool.and_eq_true, decide_eq_true_eq, Bool.and_true]
          exact ⟨Nat.mod_lt _ (by simp only [U64]; omega), by simp only [U64]; omega⟩
        · rw [applyRecs_append, happly]
          rfl
    | eraseAt i =>
      simp only [runOps, applyOp, erase] at hrun
      cases hget : s.m_data.get? (i % U64) with
      | none => rw [hget] at hrun; simp at hrun
      | some item =>
        rw [hget] at hrun
        refine ih _ s' hrun (by simpa using hopen) ?_ (rs ++ [.del item.id (i % U64)]) ?_ ?_ ?_
        · intro x hx
          simp only at hx
          exact hids x (List.eraseIdx_subset _ _ hx)
        · simp only [encodeRecs_append, hopen, if_true]
          rw [hlog]
          simp [encodeRecs]
        · rw [validFrom_append, hvalid, Bool.true_and, happly]
          simp only [validFrom, validRec, Bool.and_eq_true, decide_eq_true_eq, Bool.and_true,
            hget]
          exact ⟨⟨hids item (List.get?_mem hget), Nat.mod_lt _ (by simp only [U64]; omega)⟩,
            by simp⟩
        · rw [applyRecs_append, happly]
          rfl

/-- C1 counterexample: replaying a log whose only record is
`Append(id = 1)` leaves `m_last_id = 0`, not the maximum replayed id 1 —
`load_from_file` never updates `m_last_id` — and the next `push_back`
mints id 1 again, so two live Items then share id 1. -/
theorem C1_counterexample :
    (construct (encodeRecs [Rec.app 1 [97]])).map VecState.m_last_id = some 0 ∧
    (0 : Nat) ≠ 1 ∧
    ((construct (encodeRecs [Rec.app 1 [97]])).bind fun s =>
      match push_back s [98] with
      | .ok s' => some (s'.m_data.map Item.id)
      | _ => none) = some [1, 1] ∧
    ¬ ([1, 1] : List Nat).Nodup := by decide

/-- C1 (amended): after every successful replay the allocator's
`m_last_id` is 0 regardless of the ids in the log — `load_from_file`
does not maintain it — so the next fresh id minted by `push_back` is
always 1, which can collide with the id of a replayed live Item. -/
theorem C1_last_id_after_replay (file : List Nat) (s : VecState)
    (h : construct file = some s) :
    s.m_last_id = 0 ∧
    ∀ v : List Nat, v.length ≤ 4096 →
      push_back s v = .ok { m_data := s.m_data ++ [⟨1, v⟩], m_last_id := 1,
                            log := s.log ++ encodeRec (.app 1 v), ofs_open := true } := by
  have h0 : s.m_last_id = 0 ∧ s.ofs_open = true := by
    unfold construct at h
    cases hl : loadFrom file [] with
    | ok d =>
      rw [hl] at h
      cases h
      exact ⟨rfl, rfl⟩
    | atThrow => rw [hl] at h; cases h
    | assertAbort => rw [hl] at h; cases h
  refine ⟨h0.1, ?_⟩
  intro v hv
  rw [push_back, if_neg (by omega), h0.1, h0.2]
  rw [show (0 + 1) % U64 = 1 from by decide]
  rfl

/-- C1 witness: the amended theorem evaluated on the one-record log
`Append(id = 5)`. -/
theorem C1_witness :
    construct (encodeRecs [Rec.app 5 [9]])
      = some ⟨[⟨5, [9]⟩], 0, encodeRecs [Rec.app 5 [9]], true⟩ ∧
    push_back ⟨[⟨5, [9]⟩], 0, encodeRecs [Rec.app 5 [9]], true⟩ [4]
      = .ok ⟨[⟨5, [9]⟩] ++ [⟨1, [4]⟩], 1,
             encodeRecs [Rec.app 5 [9]] ++ encodeRec (.app 1 [4]), true⟩ :=
  ⟨by decide,
   (C1_last_id_after_replay (encodeRecs [Rec.app 5 [9]])
      ⟨[⟨5, [9]⟩], 0, encodeRecs [Rec.app 5 [9]], true⟩ (by decide)).2 [4] (by decide)⟩

/-- C2: for every sequence of `push_back` / `erase` calls that all
complete normally on a vector constructed over an empty directory,
reopening the resulting log file yields a vector whose ordered sequence
of (id, value) Items is identical to the in-memory sequence at the
moment of destruction. -/
theorem C2_round_trip (ops : List Op) (s' : VecState)
    (h : runOps freshState ops = some s') :
    (construct s'.log).map VecState.m_data = some s'.m_data := by
  obtain ⟨rs', hlog, hvalid, happly, _, _⟩ :=
    runOps_good ops freshState s' h rfl (by intro x hx; simp [freshState] at hx) [] rfl rfl rfl
  have h1 : loadFrom (encodeRecs rs' ++ []) [] = loadFrom [] (applyRecs [] rs') :=
    load_encodeRecs rs' [] [] hvalid
  rw [List.append_nil] at h1
  have hload : loadFrom s'.log [] = .ok s'.m_data := by
    rw [hlog, h1, happly]
    exact load_short [] _ (by simp)
  simp [construct, hload]

/-- C2 witness: the round trip evaluated on the session
push [1,2]; erase 0; push [3]. -/
theorem C2_witness :
    runOps freshState [Op.push [1, 2], Op.eraseAt 0, Op.push [3]]
      = some ⟨[⟨3, [3]⟩], 3, encodeRecs [Rec.app 1 [1, 2], Rec.del 1 0, Rec.app 3 [3]],
              true⟩ ∧
    (construct (encodeRecs [Rec.app 1 [1, 2], Rec.del 1 0, Rec.app 3 [3]])).map
        VecState.m_data = some [⟨3, [3]⟩] :=
  ⟨by decide,
   C2_round_trip [Op.push [1, 2], Op.eraseAt 0, Op.push [3]]
     ⟨[⟨3, [3]⟩], 3, encodeRecs [Rec.app 1 [1, 2], Rec.del 1 0, Rec.app 3 [3]], true⟩
     (by decide)⟩

/-- C3 counterexample: on a fresh vector, push; erase 0; push — under
the claimed free-list recycling the second push would reuse the freed
id 1, but the code mints id 3: `push_back` always increments
`m_last_id`, `erase` also increments it, and no `free_ids` queue exists
anywhere in the state. -/
theorem C3_counterexample :
    (runOps freshState [Op.push [7], Op.eraseAt 0, Op.push [8]]).map
        (fun s => s.m_data.map Item.id) = some [3] ∧
    some ([3] : List Nat) ≠ some [1] := by decide

/-- C3 (amended): id allocation never recycles.  `push_back` mints
`(m_last_id + 1) % 2 ^ 64` and stores it as the new item's id, and a
successful `erase` does not record the freed id anywhere — it too
increments `m_last_id` (the `periodic_notify(++m_last_id)` argument). -/
theorem C3_no_recycling :
    (∀ (s : VecState) (v : List Nat) (s' : VecState), push_back s v = .ok s' →
      s'.m_last_id = (s.m_last_id + 1) % U64 ∧
      s'.m_data.map Item.id = s.m_data.map Item.id ++ [(s.m_last_id + 1) % U64]) ∧
    (∀ (s : VecState) (i : Nat) (s' : VecState), erase s i = .ok s' →
      s'.m_last_id = (s.m_last_id + 1) % U64) := by
  constructor
  · intro s v s' h
    rw [push_back] at h
    by_cases hl : 4096 < v.length
    · rw [if_pos hl] at h; cases h
    · rw [if_neg hl] at h
      cases h
      exact ⟨rfl, by simp⟩
  · intro s i s' h
    simp only [erase] at h
    cases hget : s.m_data.get? (i % U64) with
    | none => rw [hget] at h; cases h
    | some item =>
      rw [hget] at h
      cases h
      rfl

/-- C3 witness: the amended theorem evaluated on a concrete push and a
concrete erase. -/
theorem C3_witness :
    push_back freshState [7]
      = .ok ⟨[⟨1, [7]⟩], 1, encodeRec (.app 1 [7]), true⟩ ∧
    (⟨[⟨1, [7]⟩], 1, encodeRec (.app 1 [7]), true⟩ : VecState).m_last_id
      = (freshState.m_last_id + 1) % U64 :=
  ⟨by decide,
   (C3_no_recycling.1 freshState [7]
      ⟨[⟨1, [7]⟩], 1, encodeRec (.app 1 [7]), true⟩ (by decide)).1⟩

/-- C4 counterexample: an oversized `push_back` trips the
`assert(length <= 4_KB)` — the process aborts; no ValidationError is
returned to the caller — and an out-of-bounds `erase` is an unchecked
out-of-bounds iterator (undefined behaviour), not a returned
ValidationError. -/
theorem C4_counterexample :
    push_back freshState (List.replicate 4097 0) = .assertFail ∧
    (OpResult.assertFail : OpResult VecState) ≠ .validationError ∧
    erase freshState 0 = .undef ∧
    (OpResult.undef : OpResult VecState) ≠ .validationError := by
  refine ⟨?_, by decide, by decide, by decide⟩
  rw [push_back, if_pos (by rw [List.length_replicate]; omega)]

/-- C4 (amended): `push_back` of a value longer than 4096 bytes fails
the assert and aborts the process (nothing is written before the
assert); `erase` performs no bounds check, so an out-of-bounds index is
undefined behaviour; `at` with an out-of-bounds index throws
`std::out_of_range` from `m_data.at` and, being a pure read, mutates
nothing. -/
theorem C4_failure_modes :
    (∀ (s : VecState) (v : List Nat), 4096 < v.length →
      push_back s v = .assertFail) ∧
    (∀ (s : VecState) (i : Nat), s.m_data.length ≤ i % U64 →
      erase s i = .undef) ∧
    (∀ (s : VecState) (i : Nat), s.m_data.length ≤ i % U64 →
      atIndex s i = .throwOOR) := by
  refine ⟨?_, ?_, ?_⟩
  · intro s v h
    rw [push_back, if_pos h]
  · intro s i h
    simp only [erase]
    rw [List.get?_eq_none.mpr h]
  · intro s i h
    simp only [atIndex]
    rw [List.get?_eq_none.mpr h]

/-- C4 witness: the three failure modes evaluated on concrete
out-of-contract calls. -/
theorem C4_witness :
    (4096 < (List.replicate 4097 (0 : Nat)).length ∧
      push_back freshState (List.replicate 4097 0) = .assertFail) ∧
    (freshState.m_data.length ≤ 5 % U64 ∧ erase freshState 5 = .undef) ∧
    (freshState.m_data.length ≤ 5 % U64 ∧ atIndex freshState 5 = .throwOOR) :=
  ⟨⟨by rw [List.length_replicate]; omega,
    C4_failure_modes.1 freshState (List.replicate 4097 0)
      (by rw [List.length_replicate]; omega)⟩,
   ⟨by decide, C4_failure_modes.2.1 freshState 5 (by decide)⟩,
   ⟨by decide, C4_failure_modes.2.2 freshState 5 (by decide)⟩⟩

/-- C5: truncating the encoding of a valid record sequence at any byte
offset strictly inside its final record and reopening succeeds — no
error, no exception — and recovers exactly the replay of the records
fully present before the truncation point; the partial trailing record
is discarded silently. -/
theorem C5_torn_tail (rs : List Rec) (r : Rec) (m : Nat)
    (hv : validFrom [] (rs ++ [r]) = true) (hm : m < (encodeRec r).length) :
    construct (encodeRecs rs ++ (encodeRec r).take m)
      = some { m_data := applyRecs [] rs, m_last_id := 0,
               log := encodeRecs rs ++ (encodeRec r).take m, ofs_open := true } := by
  rw [validFrom_append] at hv
  rw [Bool.and_eq_true] at hv
  have hv' : validFrom [] rs = true := hv.1
  have hrec : validRec (applyRecs [] rs) r = true := by
    have h2 := hv.2
    simp only [validFrom, Bool.and_eq_true] at h2
    exact h2.1
  have hload : loadFrom (encodeRecs rs ++ (encodeRec r).take m) []
      = .ok (applyRecs [] rs) := by
    rw [load_encodeRecs rs [] _ hv']
    cases r with
    | del id i =>
      have hlen24 : (encodeRec (.del id i)).length = 24 := by
        simp [encodeRec, encodeHeader_length]
      rw [hlen24] at hm
      refine load_short _ _ ?_
      rw [List.length_take, hlen24]
      omega
    | app id v =>
      by_cases h24 : m < 24
      · refine load_short _ _ ?_
        rw [List.length_take]
        omega
      · have hvlen : v.length < U64 := by
          simp only [validRec, Bool.and_eq_true, decide_eq_true_eq] at hrec
          exact hrec.2
        have hlen : (encodeRec (.app id v)).length = 24 + v.length := by
          simp [encodeRec, encodeHeader_length]
        rw [hlen] at hm
        exact load_torn_app id v m _ hvlen (by omega) hm
  simp [construct, hload]

/-- C5 witness: a two-record log truncated one byte into the second
record's payload recovers exactly the first record. -/
theorem C5_witness :
    (validFrom [] ([Rec.app 1 [7, 8]] ++ [Rec.app 2 [9, 9, 9]]) = true ∧
      25 < (encodeRec (Rec.app 2 [9, 9, 9])).length) ∧
    construct (encodeRecs [Rec.app 1 [7, 8]] ++ (encodeRec (Rec.app 2 [9, 9, 9])).take 25)
      = some { m_data := [⟨1, [7, 8]⟩], m_last_id := 0,
               log := encodeRecs [Rec.app 1 [7, 8]]
                        ++ (encodeRec (Rec.app 2 [9, 9, 9])).take 25,
               ofs_open := true } :=
  ⟨⟨by decide, by decide⟩,
   C5_torn_tail [Rec.app 1 [7, 8]] (Rec.app 2 [9, 9, 9]) 25 (by decide) (by decide)⟩

/-- C6 counterexample: a log consisting of one complete record with the
unrecognized kind tag 3 does not abort construction — the record is
silently skipped and construction succeeds with an empty index. -/
theorem C6_counterexample :
    construct (encodeHeader ⟨3, 0, 0⟩)
      = some { m_data := [], m_last_id := 0,
               log := encodeHeader ⟨3, 0, 0⟩, ofs_open := true } ∧
    construct (encodeHeader ⟨3, 0, 0⟩) ≠ none := by decide

/-- C6 (amended): during replay a complete Tombstone whose index is not
below the current Index length aborts construction via the
`std::out_of_range` thrown by `m_data.at`; a complete Tombstone whose id
differs from the id at that index aborts via the replay assertion; but
a complete record with an unrecognized kind tag is silently skipped
(its 24-byte header is consumed) and construction continues. -/
theorem C6_invalid_records :
    (∀ (rs : List Rec) (id i : Nat) (tail : List Nat),
      validFrom [] rs = true → id < U64 → i < U64 → (applyRecs [] rs).length ≤ i →
      loadFrom (encodeRecs rs ++ (encodeHeader ⟨ERASE, id, i⟩ ++ tail)) [] = .atThrow ∧
      construct (encodeRecs rs ++ (encodeHeader ⟨ERASE, id, i⟩ ++ tail)) = none) ∧
    (∀ (rs : List Rec) (id i : Nat) (tail : List Nat) (item : Item),
      validFrom [] rs = true → id < U64 → i < U64 →
      (applyRecs [] rs).get? i = some item → item.id ≠ id →
      loadFrom (encodeRecs rs ++ (encodeHeader ⟨ERASE, id, i⟩ ++ tail)) [] = .assertAbort ∧
      construct (encodeRecs rs ++ (encodeHeader ⟨ERASE, id, i⟩ ++ tail)) = none) ∧
    (∀ (rs : List Rec) (k id a : Nat) (tail : List Nat),
      validFrom [] rs = true → k < U64 → k ≠ ERASE → k ≠ PUSHBACK →
      loadFrom (encodeRecs rs ++ (encodeHeader ⟨k, id, a⟩ ++ tail)) []
        = loadFrom tail (applyRecs [] rs)) := by
  refine ⟨?_, ?_, ?_⟩
  · intro rs id i tail hv hid hi hoob
    have hload : loadFrom (encodeRecs rs ++ (encodeHeader ⟨ERASE, id, i⟩ ++ tail)) []
        = .atThrow := by
      rw [load_encodeRecs rs [] _ hv]
      exact load_del_throw id i tail _ hid hi hoob
    exact ⟨hload, by simp [construct, hload]⟩
  · intro rs id i tail item hv hid hi hget hne
    have hload : loadFrom (encodeRecs rs ++ (encodeHeader ⟨ERASE, id, i⟩ ++ tail)) []
        = .assertAbort := by
      rw [load_encodeRecs rs [] _ hv]
      exact load_del_abort id i tail _ item hid hi hget hne
    exact ⟨hload, by simp [construct, hload]⟩
  · intro rs k id a tail hv hk hk1 hk2
    rw [load_encodeRecs rs [] _ hv]
    exact load_skip_step k id a tail _ hk hk1 hk2

/-- C6 witness: the three replay behaviours evaluated on concrete
records — an out-of-range Tombstone, a mismatched Tombstone, and an
unknown kind tag. -/
theorem C6_witness :
    (loadFrom (encodeRecs [] ++ (encodeHeader ⟨ERASE, 1, 0⟩ ++ [])) [] = .atThrow ∧
      construct (encodeRecs [] ++ (encodeHeader ⟨ERASE, 1, 0⟩ ++ [])) = none) ∧
    (loadFrom (encodeRecs [Rec.app 1 [7]] ++ (encodeHeader ⟨ERASE, 2, 0⟩ ++ [])) []
        = .assertAbort ∧
      construct (encodeRecs [Rec.app 1 [7]] ++ (encodeHeader ⟨ERASE, 2, 0⟩ ++ [])) = none) ∧
    loadFrom (encodeRecs [] ++ (encodeHeader ⟨9, 0, 0⟩ ++ [])) []
      = loadFrom [] (applyRecs [] []) :=
  ⟨C6_invalid_records.1 [] 1 0 [] (by decide) (by decide) (by decide) (by decide),
   C6_invalid_records.2.1 [Rec.app 1 [7]] 2 0 [] ⟨1, [7]⟩ (by decide) (by decide)
     (by decide) (by decide) (by decide),
   C6_invalid_records.2.2 [] 9 0 0 [] (by decide) (by decide) (by decide) (by decide)⟩

/-- C7: every record written to the log is a 24-byte header of three
8-byte little-endian `uint64_t` fields — kind tag 1 for Append and 2 for
Tombstone, the item id, and an aux field holding the payload length for
Append or the target index for Tombstone — followed, for Append records
only, by exactly aux raw payload bytes with no padding or terminator. -/
theorem C7_wire_format (id i : Nat) (v : List Nat)
    (hid : id < U64) (hv : v.length < U64) (hi : i < U64) :
    PUSHBACK = 1 ∧ ERASE = 2 ∧
    (∀ h : Header, (encodeHeader h).length = 24) ∧
    encodeRec (.app id v) = encodeHeader ⟨PUSHBACK, id, v.length⟩ ++ v ∧
    (encodeRec (.app id v)).length = 24 + v.length ∧
    decodeU64 ((encodeRec (.app id v)).take 8) = PUSHBACK ∧
    decodeU64 (((encodeRec (.app id v)).drop 8).take 8) = id ∧
    decodeU64 (((encodeRec (.app id v)).drop 16).take 8) = v.length ∧
    (encodeRec (.app id v)).drop 24 = v ∧
    encodeRec (.del id i) = encodeHeader ⟨ERASE, id, i⟩ ∧
    (encodeRec (.del id i)).length = 24 ∧
    decodeU64 ((encodeRec (.del id i)).take 8) = ERASE ∧
    decodeU64 (((encodeRec (.del id i)).drop 8).take 8) = id ∧
    decodeU64 (((encodeRec (.del id i)).drop 16).take 8) = i := by
  obtain ⟨haK, haI, haA, haR⟩ := hdr_decomp PUSHBACK id v.length v
  obtain ⟨hdK, hdI, hdA, _⟩ := hdr_decomp ERASE id i []
  rw [List.append_nil] at hdK hdI hdA
  refine ⟨rfl, rfl, fun h => encodeHeader_length h, rfl, ?_, ?_, ?_, ?_, ?_, rfl,
    encodeHeader_length _, ?_, ?_, ?_⟩
  · simp [encodeRec, encodeHeader_length]
  · show decodeU64 ((encodeHeader ⟨PUSHBACK, id, v.length⟩ ++ v).take 8) = PUSHBACK
    rw [haK, decode_encode]
    decide
  · show decodeU64 (((encodeHeader ⟨PUSHBACK, id, v.length⟩ ++ v).drop 8).take 8) = id
    rw [haI, decode_encode]
    exact Nat.mod_eq_of_lt hid
  · show decodeU64 (((encodeHeader ⟨PUSHBACK, id, v.length⟩ ++ v).drop 16).take 8) = v.length
    rw [haA, decode_encode]
    exact Nat.mod_eq_of_lt hv
  · show (encodeHeader ⟨PUSHBACK, id, v.length⟩ ++ v).drop 24 = v
    exact haR
  · show decodeU64 ((encodeHeader ⟨ERASE, id, i⟩).take 8) = ERASE
    rw [hdK, decode_encode]
    decide
  · show decodeU64 (((encodeHeader ⟨ERASE, id, i⟩).drop 8).take 8) = id
    rw [hdI, decode_encode]
    exact Nat.mod_eq_of_lt hid
  · show decodeU64 (((encodeHeader ⟨ERASE, id, i⟩).drop 16).take 8) = i
    rw [hdA, decode_encode]
    exact Nat.mod_eq_of_lt hi

/-- C7 witness: the wire format evaluated at a concrete Append and a
concrete Tombstone record. -/
theorem C7_witness :
    ((7 : Nat) < U64 ∧ ([1, 2, 3] : List Nat).length < U64 ∧ (4 : Nat) < U64) ∧
    decodeU64 (((encodeRec (Rec.app 7 [1, 2, 3])).drop 8).take 8) = 7 := by
  refine ⟨⟨by decide, by decide, by decide⟩, ?_⟩
  have h := C7_wire_format 7 4 [1, 2, 3] (by decide) (by decide) (by decide)
  exact h.2.2.2.2.2.2.1

/-- C8 counterexample: `push_back`'s Index append is its final
shared-state access and runs without the mutex held, so it is false
that every access of the four operations and the daemon to the write
position or the Index holds the mutex. -/
theorem C8_counterexample :
    push_back_steps.getLast? = some ⟨.indexWrite, false⟩ ∧
    ¬ ∀ st ∈ push_back_steps ++ erase_steps ++ at_steps ++ size_steps ++ daemon_steps,
        st.locked = true := by decide

/-- C8 (amended): only the log writes of `push_back` / `erase` and the
daemon's flush-plus-sync run under the mutex; every mutation of the
In-Memory Index runs outside the critical section, and `at` / `size`
read the Index without taking the lock at all.  In particular
`push_back` does not append the Item within the critical section that
wrote its record. -/
theorem C8_locking :
    (∀ st ∈ push_back_steps ++ erase_steps ++ at_steps ++ size_steps ++ daemon_steps,
        (st.touch = .logWrite ∨ st.touch = .flushSync) → st.locked = true) ∧
    (∀ st ∈ push_back_steps ++ erase_steps ++ at_steps ++ size_steps ++ daemon_steps,
        st.touch = .indexWrite → st.locked = false) ∧
    (∀ st ∈ at_steps ++ size_steps, st.locked = false) := by decide

/-- C8 witness: the locking discipline evaluated at `push_back`'s first
log write. -/
theorem C8_witness :
    ((⟨.logWrite, true⟩ : Step)
        ∈ push_back_steps ++ erase_steps ++ at_steps ++ size_steps ++ daemon_steps ∧
      ((⟨.logWrite, true⟩ : Step).touch = .logWrite ∨
        (⟨.logWrite, true⟩ : Step).touch = .flushSync)) ∧
    (⟨.logWrite, true⟩ : Step).locked = true :=
  ⟨⟨by decide, by decide⟩, C8_locking.1 _ (by decide) (by decide)⟩

/-- C9: every successful `erase` increments the id high-water mark
`m_last_id` by exactly one (in `uint64_t` arithmetic) although no new
Item is created, and the id minted by the next successful `push_back`
is therefore `m_last_id + 2` relative to the pre-erase counter. -/
theorem C9_erase_increments (s : VecState) (i : Nat) (s' : VecState)
    (h : erase s i = .ok s') :
    s'.m_last_id = (s.m_last_id + 1) % U64 ∧
    ∀ (v : List Nat) (s'' : VecState), push_back s' v = .ok s'' →
      s''.m_last_id = (s.m_last_id + 2) % U64 := by
  have h1 : s'.m_last_id = (s.m_last_id + 1) % U64 := by
    simp only [erase] at h
    cases hget : s.m_data.get? (i % U64) with
    | none => rw [hget] at h; cases h
    | some item => rw [hget] at h; cases h; rfl
  refine ⟨h1, ?_⟩
  intro v s'' h2
  rw [push_back] at h2
  by_cases hl : 4096 < v.length
  · rw [if_pos hl] at h2; cases h2
  · rw [if_neg hl] at h2
    cases h2
    show (s'.m_last_id + 1) % U64 = (s.m_last_id + 2) % U64
    rw [h1, Nat.mod_add_mod]

/-- C9 witness: the erase-increments property evaluated on a one-item
vector. -/
theorem C9_witness :
    erase (⟨[⟨1, [5]⟩], 1, [], true⟩ : VecState) 0
      = .ok ⟨[], 2, encodeRec (.del 1 0), true⟩ ∧
    ((⟨[], 2, encodeRec (.del 1 0), true⟩ : VecState)).m_last_id = (1 + 1) % U64 :=
  ⟨by decide,
   (C9_erase_increments ⟨[⟨1, [5]⟩], 1, [], true⟩ 0
      ⟨[], 2, encodeRec (.del 1 0), true⟩ (by decide)).1⟩

/-- C10 counterexample: a move-assigned destination keeps its own open
log file, so a `push_back` on it appends a 25-byte Append record to that
log — it is false that operations on a moved-to vector append nothing
to any log. -/
theorem C10_counterexample :
    (match push_back (move_assign freshState ⟨[⟨7, [1]⟩], 7, [], false⟩).1 [2] with
     | .ok s' => some s'.log.length
     | _ => none) = some 25 ∧ (25 : Nat) ≠ 0 := by decide

/-- C10 (amended): move construction and move assignment transfer only
`m_data` (the source's `m_data` becomes empty) and leave every other
field of the destination untouched.  A move-constructed vector has no
open log file — its `push_back` and `erase` write no bytes anywhere —
while a move-assigned destination retains its own previously opened log
and its subsequent operations append to that file. -/
theorem C10_move_semantics :
    (∀ dst src : VecState,
      (move_assign dst src).1.m_last_id = dst.m_last_id ∧
      (move_assign dst src).1.log = dst.log ∧
      (move_assign dst src).1.ofs_open = dst.ofs_open ∧
      (move_assign dst src).1.m_data = src.m_data ∧
      (move_assign dst src).2.m_data = [] ∧
      (move_assign dst src).2.m_last_id = src.m_last_id ∧
      (move_assign dst src).2.log = src.log ∧
      (move_assign dst src).2.ofs_open = src.ofs_open) ∧
    (∀ (u : Nat) (src : VecState) (v : List Nat) (s' : VecState),
      push_back (move_ctor u src).1 v = .ok s' → s'.log = []) ∧
    (∀ (u i : Nat) (src : VecState) (s' : VecState),
      erase (move_ctor u src).1 i = .ok s' → s'.log = []) := by
  refine ⟨fun dst src => ⟨rfl, rfl, rfl, rfl, rfl, rfl, rfl, rfl⟩, ?_, ?_⟩
  · intro u src v s' h
    rw [push_back] at h
    by_cases hl : 4096 < v.length
    · rw [if_pos hl] at h; cases h
    · rw [if_neg hl] at h
      cases h
      rfl
  · intro u i src s' h
    simp only [erase] at h
    cases hget : (move_ctor u src).1.m_data.get? (i % U64) with
    | none => rw [hget] at h; cases h
    | some item => rw [hget] at h; cases h; rfl

/-- C10 witness: a push on a move-constructed vector appends nothing to
any log. -/
theorem C10_witness :
    push_back (move_ctor 42 ⟨[⟨1, [5]⟩], 1, [3, 3], true⟩).1 [9]
      = .ok ⟨[⟨1, [5]⟩, ⟨43, [9]⟩], 43, [], false⟩ ∧
    ((⟨[⟨1, [5]⟩, ⟨43, [9]⟩], 43, [], false⟩ : VecState)).log = [] :=
  ⟨by decide,
   C10_move_semantics.2.1 42 ⟨[⟨1, [5]⟩], 1, [3, 3], true⟩ [9]
     ⟨[⟨1, [5]⟩, ⟨43, [9]⟩], 43, [], false⟩ (by decide)⟩

end PVec
